import Mathlib

/-!
Verification of the OFAC sanctioned digital-currency address extractor
(`generate-address-list.py`).

The script parses the OFAC `sdn_advanced.xml` document, resolves a per-asset
feature-type identifier, harvests address records with owning-entity names,
deduplicates by address (first write wins), sorts ascending by address, and
writes TXT and/or JSON output files.

The XML document is shallowly embedded: each XPath query in the source denotes
a list of elements in document order, which we represent directly as list
fields of the structures below.
-/

namespace Ofac

/-- An address record as built by `get_sanctioned_addresses`
(a Python dict with keys `address` and `name`). -/
structure Record where
  address : String
  name : String
deriving DecidableEq, Repr

/-- One `Alias` element under `Profile/Identity`.  `parts` holds the `.text`
of each `DocumentedName/DocumentedNamePart/NamePartValue` descendant, in
document order (`none` models a Python `None` text of an empty element). -/
structure NameAlias where
  parts : List (Option String)
deriving DecidableEq, Repr

/-- An element carrying a `FeatureTypeID` attribute inside a `DistinctParty`.
`versionDetails` holds the `.text` of each `VersionDetail` descendant in
document order. -/
structure Feature where
  featureTypeID : String
  versionDetails : List (Option String)
deriving DecidableEq, Repr

/-- A `DistinctParty` element: its aliases (the
`.//Profile/Identity/Alias` query) and its feature elements (the
`.//*[@FeatureTypeID=...]` query ranges over `features`). -/
structure DistinctParty where
  aliases : List NameAlias
  features : List Feature
deriving DecidableEq, Repr

/-- A child element of `ReferenceValueSets/FeatureTypeValues`: its text and
its attribute dictionary (`attrib`), modelled as an association list with
distinct keys. -/
structure RefEntry where
  text : Option String
  attribs : List (String × String)
deriving DecidableEq, Repr

/-- The parsed document root: the `FeatureTypeValues` children (for
`get_address_id`) and the `DistinctParties/DistinctParty` list. -/
structure SdnDoc where
  featureTypeEntries : List RefEntry
  parties : List DistinctParty
deriving DecidableEq, Repr

/-- Python exceptions raised by the core: `LookupError(msg)` from the
explicit `raise`, and `KeyError(key)` from `attrib["ID"]`. -/
inductive PyError where
  | lookupError (msg : String)
  | keyError (key : String)
deriving DecidableEq, Repr

/-- Python's `except LookupError` clause catches an exception `e` iff
`isinstance(e, LookupError)`.  `KeyError` is a built-in subclass of
`LookupError` in Python, so both constructors are caught. -/
def caughtByLookupHandler : PyError → Bool
  | .lookupError _ => true
  | .keyError _ => true

/-- Python `str(e)` as printed by `print(f"Warning: {e}")`: a `LookupError`
prints its message, a `KeyError` prints the `repr` of its key. -/
def errText : PyError → String
  | .lookupError m => m
  | .keyError k => "'" ++ k ++ "'"

/-- Source line 46: `f"Digital Currency Address - {asset}"`. -/
def feature_type_text (asset : String) : String :=
  "Digital Currency Address - " ++ asset

/-- Source lines 48-55: find the first `FeatureTypeValues` child whose text
equals `feature_type_text asset`; raise `LookupError` if none, else return
its `ID` attribute (`attrib["ID"]` raises `KeyError "ID"` when absent). -/
def get_address_id (root : SdnDoc) (asset : String) : Except PyError String :=
  match root.featureTypeEntries.find? (fun e => e.text == some (feature_type_text asset)) with
  | none => .error (.lookupError
      ("No FeatureType with the name " ++ feature_type_text asset ++ " found"))
  | some e =>
    match e.attribs.find? (fun kv => kv.1 == "ID") with
    | none => .error (.keyError "ID")
    | some kv => .ok kv.2

/-- Python `dict.fromkeys(names)` keeps the first occurrence of each key, in
insertion order; joining its keys enumerates them in that order. -/
def dictFromKeys (l : List String) : List String :=
  l.foldl (fun acc k => if k ∈ acc then acc else acc ++ [k]) []

/-- Source lines 57-76 (`get_entity_name`): for each alias collect the truthy
name-part texts, join them with a single space, keep non-empty assemblies;
return `"Unknown"` when no names, else the first-seen-unique names joined
with `";"`. -/
def get_entity_name (party : DistinctParty) : String :=
  let names := party.aliases.foldl (fun names al =>
    let parts := al.parts.foldl (fun parts t =>
      match t with
      | some s => if s ≠ "" then parts ++ [s] else parts
      | none => parts) []
    if parts ≠ [] then names ++ [" ".intercalate parts] else names) []
  if names = [] then "Unknown"
  else ";".intercalate (dictFromKeys names)

/-- Source lines 78-104 (`get_sanctioned_addresses`): for each party, gather
the features tagged with `address_id`; when any exist, compute the entity
name once and append one record per truthy `VersionDetail` text. -/
def get_sanctioned_addresses (root : SdnDoc) (address_id : String) : List Record :=
  root.parties.foldl (fun acc party =>
    let features := party.features.filter (fun f => f.featureTypeID == address_id)
    if features ≠ [] then
      let entity_name := get_entity_name party
      features.foldl (fun acc2 feature =>
        feature.versionDetails.foldl (fun acc3 t =>
          match t with
          | some s => if s ≠ "" then acc3 ++ [⟨s, entity_name⟩] else acc3
          | none => acc3) acc2) acc
    else acc) []

/-- One step of the dedup loop at source lines 163-167:
`if addr not in seen_addresses: seen_addresses[addr] = item['name']`,
with the insertion-ordered dict modelled as a list of records. -/
def fwStep (seen : List Record) (r : Record) : List Record :=
  if r.address ∈ seen.map Record.address then seen else seen ++ [r]

/-- The `seen_addresses` dict after the loop at source lines 163-167,
as a list of records in insertion order. -/
def firstWins (records : List Record) : List Record :=
  records.foldl fwStep []

/-- Python tuple comparison used by `sorted(seen_addresses.items())`:
compare addresses first, names on address ties. -/
def recLe (x y : Record) : Prop :=
  x.address < y.address ∨ (x.address = y.address ∧ x.name ≤ y.name)

instance : DecidableRel recLe := fun x y => by
  unfold recLe; infer_instance

/-- Source lines 162-171 of `main`: deduplicate by address keeping the first
name, then rebuild the record list sorted ascending by address. -/
def dedupSortAddresses (records : List Record) : List Record :=
  List.insertionSort recLe (firstWins records)

/-- Strict ascending-address comparison between records. -/
def addrLt (x y : Record) : Prop := x.address < y.address

/-- Name associated to address `a` in a record list, first match first. -/
def lookupName (a : String) (l : List Record) : Option String :=
  (l.find? (fun r => r.address == a)).map Record.name

/-- Python truthiness filter on an element text: `None` and `""` are falsy
and dropped, any other string is kept. -/
def keepText : Option String → Option String
  | some s => if s = "" then none else some s
  | none => none

/-- The spec's name-assembly rule for one alias: concatenate the present
name-part values with a single space; an alias assembling to nothing yields
no name. -/
def assembleAlias (al : NameAlias) : Option String :=
  let parts := al.parts.filterMap keepText
  if parts = [] then none else some (" ".intercalate parts)

/-- First-seen-order deduplication of a list of strings. -/
def dedupFirst : List String → List String
  | [] => []
  | x :: xs => x :: dedupFirst (xs.filter (fun y => y ≠ x))
termination_by l => l.length
decreasing_by
  simp only [List.length_cons]
  exact Nat.lt_succ_of_le (List.length_filter_le _ _)

/-- The spec's description of `get_entity_name`: collect the non-empty
assembled alias names, deduplicate keeping first-seen order, join with `";"`,
defaulting to `"Unknown"`. -/
def entityNameSpec (party : DistinctParty) : String :=
  let names := party.aliases.filterMap assembleAlias
  if names = [] then "Unknown" else ";".intercalate (dedupFirst names)

/-- The spec's description of the harvester: for each party, every
`VersionDetail` text of every feature tagged `fid`, in document order,
keeping exactly the present non-empty values, paired with the party's
entity name. -/
def harvestSpec (root : SdnDoc) (fid : String) : List Record :=
  root.parties.flatMap (fun p =>
    (((p.features.filter (fun f => f.featureTypeID == fid)).flatMap
        Feature.versionDetails).filterMap keepText).map
      (fun s => ⟨s, get_entity_name p⟩))

/-- Python's `csv.writer` with `delimiter=';'` and default `QUOTE_MINIMAL`
quoting: a field is quoted iff it contains the delimiter, the quote
character, or a line-terminator character. -/
def csvNeedsQuote (s : String) : Bool :=
  s.data.any (fun c => c == ';' || c == '"' || c == '\r' || c == '\n')

/-- Quote-doubling applied inside a quoted CSV field. -/
def csvEscape (cs : List Char) : List Char :=
  cs.flatMap (fun c => if c = '"' then ['"', '"'] else [c])

/-- The characters `csv.writer` emits for one field. -/
def csvField (s : String) : List Char :=
  if csvNeedsQuote s then '"' :: (csvEscape s.data ++ ['"']) else s.data

/-- Source line 130: `writer.writerow([item['address'], item['name']])`
emits one line holding the two CSV-encoded fields joined by `';'`. -/
def rowLine (r : Record) : String :=
  ⟨csvField r.address ++ ';' :: csvField r.name⟩

/-- Character predicate: not the CSV delimiter. -/
def notSemi (c : Char) : Bool := c ≠ ';'

/-- CSV reader for the inside of a quoted field: consume up to the closing
quote, undoubling doubled quotes; return the field characters and the
remaining input. Fails on an unterminated quote. -/
def pqf : List Char → Option (List Char × List Char)
  | [] => none
  | c :: rest =>
    if c = '"' then
      match rest with
      | [] => some ([], [])
      | c2 :: rest2 =>
        if c2 = '"' then (pqf rest2).map (fun p => ('"' :: p.1, p.2))
        else some ([], rest)
    else (pqf rest).map (fun p => (c :: p.1, p.2))
termination_by cs => cs.length
decreasing_by
  · simp only [List.length_cons]
    omega
  · simp only [List.length_cons]
    omega

/-- CSV reader for one field: a field opening with a quote is read by `pqf`,
any other field extends to the next delimiter. -/
def parseField (cs : List Char) : Option (String × List Char) :=
  if cs.head? = some '"' then (pqf cs.tail).map (fun p => (⟨p.1⟩, p.2))
  else some (⟨cs.takeWhile notSemi⟩, cs.dropWhile notSemi)

/-- CSV reader for one two-field line `address;name`. -/
def decodeRow (s : String) : Option (String × String) :=
  match parseField s.data with
  | some (f1, ';' :: rest) =>
    match parseField rest with
    | some (f2, []) => some (f1, f2)
    | _ => none
  | _ => none

/-- A JSON value, as far as this program's output needs: strings, arrays and
objects with insertion-ordered keys. -/
inductive Json where
  | str (s : String)
  | arr (xs : List Json)
  | obj (kvs : List (String × Json))

/-- Source line 135: `json.dump(address_data, ...)` serializes the record
list as an array of `{address, name}` objects, keys in insertion order. -/
def jsonOutput (data : List Record) : Json :=
  .arr (data.map (fun r => .obj [("address", .str r.address), ("name", .str r.name)]))

/-- Reading one record back from its JSON object form. -/
def recordOfJson : Json → Option Record
  | .obj [("address", .str a), ("name", .str n)] => some ⟨a, n⟩
  | _ => none

/-- Reading a list of records back from a list of JSON values, failing if
any element is not a record object. -/
def recordListOfJson : List Json → Option (List Record)
  | [] => some []
  | j :: js =>
    match recordOfJson j, recordListOfJson js with
    | some r, some rs => some (r :: rs)
    | _, _ => none

/-- Parsing the JSON output back into the in-memory record list
(`json.load` followed by reading each object). -/
def recordsOfJson : Json → Option (List Record)
  | .arr xs => recordListOfJson xs
  | _ => none

/-- CSV-decoding every line of a TXT file, failing if any line is not a
two-field row. -/
def decodeRows : List String → Option (List (String × String))
  | [] => some []
  | l :: ls =>
    match decodeRow l, decodeRows ls with
    | some p, some ps => some (p :: ps)
    | _, _ => none

/-- The content written to one output file. -/
inductive FileContent where
  | txtRows (lines : List String)
  | jsonDoc (j : Json)

/-- One output file: its name and its content. -/
structure OutFile where
  fname : String
  content : FileContent

/-- Source lines 106-135 (`write_addresses`): the files written for one
asset, a TXT file of CSV rows and/or a JSON file, in that order.  Directory
creation always succeeds in this model. -/
def write_addresses (address_data : List Record) (asset : String)
    (output_formats : List String) : List OutFile :=
  (if "TXT" ∈ output_formats then
    [⟨"sanctioned_addresses_" ++ asset ++ ".txt", .txtRows (address_data.map rowLine)⟩]
  else []) ++
  (if "JSON" ∈ output_formats then
    [⟨"sanctioned_addresses_" ++ asset ++ ".json", .jsonDoc (jsonOutput address_data)⟩]
  else [])

/-- The (address, name) pairs an output file represents: CSV-decode each TXT
row, or read back the JSON document. -/
def filePairs : FileContent → Option (List (String × String))
  | .txtRows lines => decodeRows lines
  | .jsonDoc j => (recordsOfJson j).map (List.map (fun r => (r.address, r.name)))

/-- What the driver's per-asset loop body produces for one asset: a
processed asset with its written files and reported count, or a warning
printed by the `except LookupError` handler. -/
inductive Outcome where
  | processed (asset : String) (files : List OutFile) (count : Nat)
  | warned (asset : String) (msg : String)

/-- The `try` body of source lines 158-174 for one asset: resolve the
feature type, harvest, dedup and sort, write files; exceptions propagate. -/
def processAsset (root : SdnDoc) (asset : String) (fmts : List String) :
    Except PyError Outcome :=
  match get_address_id root asset with
  | .error e => .error e
  | .ok fid =>
    let address_data := dedupSortAddresses (get_sanctioned_addresses root fid)
    .ok (.processed asset (write_addresses address_data asset fmts) address_data.length)

/-- The driver loop of source lines 157-177: process each asset in turn; an
exception caught by `except LookupError` becomes a warning and the loop
continues, any other exception aborts the run. -/
def runAssets (root : SdnDoc) (fmts : List String) :
    List String → Except PyError (List Outcome)
  | [] => .ok []
  | a :: rest =>
    match processAsset root a fmts with
    | .ok o => (runAssets root fmts rest).map (fun os => o :: os)
    | .error e =>
      if caughtByLookupHandler e then
        (runAssets root fmts rest).map (fun os => .warned a ("Warning: " ++ errText e) :: os)
      else .error e

/-- Document used to exhibit behaviour on a whitespace-only address value:
one party, no aliases, one feature tagged `"1"` whose single
`VersionDetail` text is a single space. -/
def wsDoc : SdnDoc := ⟨[], [⟨[], [⟨"1", [some " "]⟩]⟩]⟩

/-- Document with a feature-type entry for XBT (ID `"40"`) and none for XMR;
one party holding one XBT address. -/
def docOneAsset : SdnDoc :=
  ⟨[⟨some "Digital Currency Address - XBT", [("ID", "40")]⟩],
   [⟨[⟨[some "Alpha"]⟩], [⟨"40", [some "addr1"]⟩]⟩]⟩

/-- Document whose ETH feature-type entry lacks an `ID` attribute, while the
XBT entry is complete; one party holding one XBT address. -/
def docMissingId : SdnDoc :=
  ⟨[⟨some "Digital Currency Address - ETH", []⟩,
    ⟨some "Digital Currency Address - XBT", [("ID", "40")]⟩],
   [⟨[⟨[some "Alpha"]⟩], [⟨"40", [some "addr1"]⟩]⟩]⟩

instance : IsTotal Record recLe :=
  ⟨fun x y => by
    rcases lt_trichotomy x.address y.address with h | h | h
    · exact Or.inl (Or.inl h)
    · rcases le_total x.name y.name with hn | hn
      · exact Or.inl (Or.inr ⟨h, hn⟩)
      · exact Or.inr (Or.inr ⟨h.symm, hn⟩)
    · exact Or.inr (Or.inl h)⟩

instance : IsTrans Record recLe :=
  ⟨fun x y z hxy hyz => by
    rcases hxy with h | ⟨he, hn⟩ <;> rcases hyz with h' | ⟨he', hn'⟩
    · exact Or.inl (h.trans h')
    · exact Or.inl (lt_of_lt_of_eq h he')
    · exact Or.inl (lt_of_eq_of_lt he h')
    · exact Or.inr ⟨he.trans he', hn.trans hn'⟩⟩

instance : IsAntisymm Record recLe :=
  ⟨fun x y hxy hyx => by
    rcases hxy with h | ⟨he, hn⟩ <;> rcases hyx with h' | ⟨he', hn'⟩
    · exact absurd (h.trans h') (lt_irrefl _)
    · exact absurd (lt_of_lt_of_eq h he') (lt_irrefl _)
    · exact absurd (lt_of_lt_of_eq h' he) (lt_irrefl _)
    · cases x; cases y
      simp only [Record.mk.injEq]
      exact ⟨he, le_antisymm hn hn'⟩⟩

lemma lookupName_append (a : String) (l₁ l₂ : List Record) :
    lookupName a (l₁ ++ l₂) = (lookupName a l₁).or (lookupName a l₂) := by
  unfold lookupName
  rw [List.find?_append]
  cases l₁.find? (fun r => r.address == a) <;> simp

lemma lookupName_isSome_of_mem {a : String} {l : List Record}
    (h : a ∈ l.map Record.address) : ∃ v, lookupName a l = some v := by
  induction l with
  | nil => simp at h
  | cons x xs ih =>
    simp only [List.map_cons, List.mem_cons] at h
    by_cases hx : x.address = a
    · refine ⟨x.name, ?_⟩
      unfold lookupName
      rw [List.find?_cons_of_pos _ (by simp [hx])]
      rfl
    · have h' : a ∈ xs.map Record.address := by
        rcases h with h | h
        · exact absurd h.symm hx
        · exact h
      rcases ih h' with ⟨v, hv⟩
      refine ⟨v, ?_⟩
      unfold lookupName at hv ⊢
      rw [List.find?_cons_of_neg _ (by simp [hx])]
      exact hv

/-- The dedup loop's lookup behaviour: a name found after folding the loop
over `rs` starting from `acc` is the name already in `acc`, or else the name
of the first record of `rs` carrying that address. -/
lemma foldl_fwStep_lookup (rs : List Record) (acc : List Record) (a : String) :
    lookupName a (rs.foldl fwStep acc)
      = (lookupName a acc).or ((rs.find? (fun r => r.address == a)).map Record.name) := by
  induction rs generalizing acc with
  | nil => simp
  | cons r rs ih =>
    rw [List.foldl_cons, ih]
    by_cases ha : r.address = a
    · rw [List.find?_cons_of_pos _ (by simp [ha])]
      by_cases hmem : r.address ∈ acc.map Record.address
      · have hstep : fwStep acc r = acc := by simp [fwStep, hmem]
        rw [hstep]
        rcases lookupName_isSome_of_mem (ha ▸ hmem) with ⟨v, hv⟩
        simp [hv, Option.or]
      · have hstep : fwStep acc r = acc ++ [r] := by simp [fwStep, hmem]
        rw [hstep, lookupName_append, Option.or_assoc]
        congr 1
        have h1 : lookupName a [r] = some r.name := by
          unfold lookupName
          rw [List.find?_cons_of_pos _ (by simp [ha])]
          rfl
        rw [h1]
        rfl
    · rw [List.find?_cons_of_neg _ (by simp [ha])]
      by_cases hmem : r.address ∈ acc.map Record.address
      · have hstep : fwStep acc r = acc := by simp [fwStep, hmem]
        rw [hstep]
      · have hstep : fwStep acc r = acc ++ [r] := by simp [fwStep, hmem]
        rw [hstep, lookupName_append, Option.or_assoc]
        congr 1
        have h1 : lookupName a [r] = none := by
          unfold lookupName
          rw [List.find?_cons_of_neg _ (by simp [ha])]
          rfl
        rw [h1, Option.none_or]

lemma foldl_fwStep_keys_nodup (rs : List Record) (acc : List Record)
    (hacc : (acc.map Record.address).Nodup) :
    ((rs.foldl fwStep acc).map Record.address).Nodup := by
  induction rs generalizing acc with
  | nil => exact hacc
  | cons r rs ih =>
    rw [List.foldl_cons]
    by_cases hmem : r.address ∈ acc.map Record.address
    · have hstep : fwStep acc r = acc := by simp [fwStep, hmem]
      rw [hstep]; exact ih acc hacc
    · have hstep : fwStep acc r = acc ++ [r] := by simp [fwStep, hmem]
      rw [hstep]
      apply ih
      simp only [List.map_append, List.map_cons, List.map_nil]
      rw [List.nodup_append]
      exact ⟨hacc, List.nodup_singleton _, by simpa using hmem⟩

lemma firstWins_keys_nodup (rs : List Record) :
    ((firstWins rs).map Record.address).Nodup :=
  foldl_fwStep_keys_nodup rs [] (by simp)

lemma foldl_fwStep_of_nodup (rs : List Record) (acc : List Record)
    (h : ((acc ++ rs).map Record.address).Nodup) :
    rs.foldl fwStep acc = acc ++ rs := by
  induction rs generalizing acc with
  | nil => simp
  | cons r rs ih =>
    have hd : (acc.map Record.address).Disjoint ((r :: rs).map Record.address) :=
      List.disjoint_of_nodup_append (by simpa using h)
    have hmem : r.address ∉ acc.map Record.address := fun hc =>
      hd hc (by simp)
    have hstep : fwStep acc r = acc ++ [r] := by simp [fwStep, hmem]
    rw [List.foldl_cons, hstep, ih (acc ++ [r]) (by simpa using h)]
    simp

/-- A record list whose addresses are already distinct passes through the
dedup loop unchanged. -/
lemma firstWins_of_nodup {rs : List Record}
    (h : (rs.map Record.address).Nodup) : firstWins rs = rs := by
  unfold firstWins
  rw [foldl_fwStep_of_nodup rs [] (by simpa using h)]
  simp

lemma find?_addr_of_mem {a : String} {r : Record} :
    ∀ {l : List Record}, (l.map Record.address).Nodup → r ∈ l → r.address = a →
      l.find? (fun x => x.address == a) = some r := by
  intro l
  induction l with
  | nil => intro _ hmem _; simp at hmem
  | cons x xs ih =>
    intro hn hmem ha
    simp only [List.map_cons, List.nodup_cons] at hn
    by_cases hx : x.address = a
    · have hrx : r = x := by
        rcases List.mem_cons.mp hmem with h | h
        · exact h
        · exfalso
          apply hn.1
          rw [hx, ← ha]
          exact List.mem_map_of_mem Record.address h
      rw [List.find?_cons_of_pos _ (by simp [hx]), hrx]
    · have hrx : r ≠ x := fun hc => hx (hc ▸ ha)
      have hxs : r ∈ xs := by
        rcases List.mem_cons.mp hmem with h | h
        · exact absurd h hrx
        · exact h
      rw [List.find?_cons_of_neg _ (by simp [hx])]
      exact ih hn.2 hxs ha

lemma find?_addr_eq_some_iff {l : List Record} {a : String} {r : Record}
    (hn : (l.map Record.address).Nodup) :
    l.find? (fun r => r.address == a) = some r ↔ r ∈ l ∧ r.address = a := by
  constructor
  · intro h
    exact ⟨List.mem_of_find?_eq_some h, by simpa using List.find?_some h⟩
  · rintro ⟨hmem, ha⟩
    exact find?_addr_of_mem hn hmem ha

/-- Lookup by address is invariant under permutation when addresses are
pairwise distinct. -/
lemma find?_addr_eq_of_perm {l₁ l₂ : List Record} (h : l₁.Perm l₂)
    (hn : (l₁.map Record.address).Nodup) (a : String) :
    l₁.find? (fun r => r.address == a) = l₂.find? (fun r => r.address == a) := by
  have hn₂ : (l₂.map Record.address).Nodup := ((h.map Record.address).nodup_iff).mp hn
  cases hfind : l₁.find? (fun r => r.address == a) with
  | none =>
    symm
    rw [List.find?_eq_none] at hfind ⊢
    intro x hx
    exact hfind x (h.mem_iff.mpr hx)
  | some r =>
    rcases (find?_addr_eq_some_iff hn).mp hfind with ⟨hmem, ha⟩
    exact ((find?_addr_eq_some_iff hn₂).mpr ⟨h.mem_iff.mp hmem, ha⟩).symm

lemma dedupSort_perm_firstWins (records : List Record) :
    (dedupSortAddresses records).Perm (firstWins records) :=
  List.perm_insertionSort recLe (firstWins records)

lemma dedupSort_keys_nodup (records : List Record) :
    ((dedupSortAddresses records).map Record.address).Nodup :=
  (((dedupSort_perm_firstWins records).map Record.address).nodup_iff).mpr
    (firstWins_keys_nodup records)

lemma dedupSort_sorted (records : List Record) :
    List.Sorted recLe (dedupSortAddresses records) :=
  List.sorted_insertionSort recLe (firstWins records)

lemma dedupFirst_cons (x : String) (xs : List String) :
    dedupFirst (x :: xs) = x :: dedupFirst (xs.filter (fun y => y ≠ x)) := by
  rw [dedupFirst]

lemma dedupFirst_subset {a : String} {l : List String}
    (h : a ∈ dedupFirst l) : a ∈ l := by
  induction l using dedupFirst.induct with
  | case1 => simp [dedupFirst] at h
  | case2 x xs ih =>
    rw [dedupFirst_cons] at h
    rcases List.mem_cons.mp h with rfl | h
    · exact List.mem_cons_self _ _
    · exact List.mem_cons_of_mem _ (List.mem_of_mem_filter (ih h))

lemma dedupFirst_nodup (l : List String) : (dedupFirst l).Nodup := by
  induction l using dedupFirst.induct with
  | case1 => simp [dedupFirst]
  | case2 x xs ih =>
    rw [dedupFirst_cons]
    refine List.nodup_cons.mpr ⟨?_, ih⟩
    intro hx
    have := List.of_mem_filter (dedupFirst_subset hx)
    simp at this

lemma partsFoldl (ps : List (Option String)) (acc : List String) :
    ps.foldl (fun parts t =>
      match t with
      | some s => if s ≠ "" then parts ++ [s] else parts
      | none => parts) acc = acc ++ ps.filterMap keepText := by
  induction ps generalizing acc with
  | nil => simp
  | cons t ts ih =>
    rw [List.foldl_cons, ih]
    cases t with
    | none => simp [keepText, List.filterMap_cons]
    | some s =>
      by_cases hs : s = ""
      · simp [keepText, hs, List.filterMap_cons]
      · simp [keepText, hs, List.filterMap_cons]

lemma namesFoldl (als : List NameAlias) (acc : List String) :
    als.foldl (fun names al =>
      let parts := al.parts.foldl (fun parts t =>
        match t with
        | some s => if s ≠ "" then parts ++ [s] else parts
        | none => parts) []
      if parts ≠ [] then names ++ [" ".intercalate parts] else names) acc
    = acc ++ als.filterMap assembleAlias := by
  induction als generalizing acc with
  | nil => simp
  | cons al als ih =>
    rw [List.foldl_cons, ih]
    simp only [partsFoldl, List.nil_append]
    by_cases h : al.parts.filterMap keepText = []
    · simp [List.filterMap_cons, assembleAlias, h]
    · simp [List.filterMap_cons, assembleAlias, h]

lemma dictFromKeys_foldl (l : List String) (acc : List String) :
    l.foldl (fun acc k => if k ∈ acc then acc else acc ++ [k]) acc
      = acc ++ dedupFirst (l.filter (fun y => y ∉ acc)) := by
  induction l generalizing acc with
  | nil => simp [dedupFirst]
  | cons x xs ih =>
    rw [List.foldl_cons]
    by_cases hx : x ∈ acc
    · rw [if_pos hx, ih]
      simp [List.filter_cons, hx]
    · rw [if_neg hx, ih]
      have hfc : (x :: xs).filter (fun y => decide (y ∉ acc))
          = x :: xs.filter (fun y => decide (y ∉ acc)) := by
        simp [List.filter_cons, hx]
      rw [hfc, dedupFirst_cons, List.filter_filter]
      have hpt : ∀ a ∈ xs,
          (decide (a ∉ acc ++ [x])) = ((decide (a ≠ x)) && (decide (a ∉ acc))) := by
        intro a _
        by_cases h1 : a = x <;> by_cases h2 : a ∈ acc <;> simp [h1, h2]
      rw [List.filter_congr hpt]
      simp [List.append_assoc]

lemma dictFromKeys_eq_dedupFirst (l : List String) :
    dictFromKeys l = dedupFirst l := by
  unfold dictFromKeys
  rw [dictFromKeys_foldl]
  have : l.filter (fun y => decide (y ∉ ([] : List String))) = l :=
    List.filter_eq_self.mpr (fun a _ => by simp)
  rw [this, List.nil_append]

lemma versionFoldl (name : String) (vds : List (Option String)) (acc : List Record) :
    vds.foldl (fun acc3 t =>
      match t with
      | some s => if s ≠ "" then acc3 ++ [⟨s, name⟩] else acc3
      | none => acc3) acc
    = acc ++ (vds.filterMap keepText).map (fun s => ⟨s, name⟩) := by
  induction vds generalizing acc with
  | nil => simp
  | cons t ts ih =>
    rw [List.foldl_cons, ih]
    cases t with
    | none => simp [keepText, List.filterMap_cons]
    | some s =>
      by_cases hs : s = ""
      · simp [keepText, hs, List.filterMap_cons]
      · simp [keepText, hs, List.filterMap_cons]

lemma featureFoldl (name : String) (fs : List Feature) (acc : List Record) :
    fs.foldl (fun acc2 feature =>
      feature.versionDetails.foldl (fun acc3 t =>
        match t with
        | some s => if s ≠ "" then acc3 ++ [⟨s, name⟩] else acc3
        | none => acc3) acc2) acc
    = acc ++ ((fs.flatMap Feature.versionDetails).filterMap keepText).map
        (fun s => ⟨s, name⟩) := by
  induction fs generalizing acc with
  | nil => simp
  | cons f fs ih =>
    rw [List.foldl_cons, ih]
    simp only [versionFoldl]
    simp [List.flatMap_cons, List.filterMap_append, List.append_assoc]

lemma harvestFoldl (fid : String) (ps : List DistinctParty) (acc : List Record) :
    ps.foldl (fun acc party =>
      let features := party.features.filter (fun f => f.featureTypeID == fid)
      if features ≠ [] then
        let entity_name := get_entity_name party
        features.foldl (fun acc2 feature =>
          feature.versionDetails.foldl (fun acc3 t =>
            match t with
            | some s => if s ≠ "" then acc3 ++ [⟨s, entity_name⟩] else acc3
            | none => acc3) acc2) acc
      else acc) acc
    = acc ++ ps.flatMap (fun p =>
        (((p.features.filter (fun f => f.featureTypeID == fid)).flatMap
            Feature.versionDetails).filterMap keepText).map
          (fun s => ⟨s, get_entity_name p⟩)) := by
  induction ps generalizing acc with
  | nil => simp
  | cons p ps ih =>
    rw [List.foldl_cons, ih]
    by_cases h : p.features.filter (fun f => f.featureTypeID == fid) = []
    · simp [h, List.flatMap_cons]
    · simp only [h, ne_eq, not_false_iff, if_true, featureFoldl]
      simp [List.flatMap_cons, List.append_assoc]

lemma keepText_ne_empty {t : Option String} {s : String}
    (h : keepText t = some s) : s ≠ "" := by
  cases t with
  | none => simp [keepText] at h
  | some u =>
    by_cases hu : u = ""
    · simp [keepText, hu] at h
    · simp [keepText, hu] at h
      exact h ▸ hu

lemma takeWhile_append_semi (l r : List Char) (h : ∀ x ∈ l, notSemi x = true) :
    (l ++ ';' :: r).takeWhile notSemi = l ∧ (l ++ ';' :: r).dropWhile notSemi = ';' :: r := by
  induction l with
  | nil =>
    constructor
    · rw [List.nil_append, List.takeWhile_cons]
      simp [notSemi]
    · rw [List.nil_append, List.dropWhile_cons]
      simp [notSemi]
  | cons c l ih =>
    have hc : notSemi c = true := h c (List.mem_cons_self _ _)
    have ih' := ih (fun x hx => h x (List.mem_cons_of_mem _ hx))
    constructor
    · rw [List.cons_append, List.takeWhile_cons, if_pos hc, ih'.1]
    · rw [List.cons_append, List.dropWhile_cons, if_pos hc, ih'.2]

lemma takeWhile_all_of_all (l : List Char) (h : ∀ x ∈ l, notSemi x = true) :
    l.takeWhile notSemi = l ∧ l.dropWhile notSemi = [] := by
  induction l with
  | nil => simp
  | cons c l ih =>
    have hc : notSemi c = true := h c (List.mem_cons_self _ _)
    have ih' := ih (fun x hx => h x (List.mem_cons_of_mem _ hx))
    constructor
    · rw [List.takeWhile_cons, if_pos hc, ih'.1]
    · rw [List.dropWhile_cons, if_pos hc, ih'.2]

lemma no_special_chars {s : String} (h : csvNeedsQuote s = false) :
    ∀ x ∈ s.data, notSemi x = true ∧ x ≠ '"' := by
  intro x hx
  unfold csvNeedsQuote at h
  rw [List.any_eq_false] at h
  have hc := h x hx
  constructor
  · simp only [notSemi, decide_eq_true_eq]
    intro he
    subst he
    exact hc (by simp)
  · intro he
    subst he
    exact hc (by simp)

lemma pqf_cons_ne (c : Char) (l : List Char) (hc : ¬c = '"') :
    pqf (c :: l) = (pqf l).map (fun p => (c :: p.1, p.2)) := by
  cases l with
  | nil => rw [pqf.eq_2, if_neg hc]
  | cons d ds => rw [pqf.eq_3, if_neg hc]

lemma pqf_quote_quote (l : List Char) :
    pqf ('"' :: '"' :: l) = (pqf l).map (fun p => ('"' :: p.1, p.2)) := by
  rw [pqf.eq_3, if_pos rfl, if_pos rfl]

lemma pqf_quote_stop (l : List Char) (h : l.head? ≠ some '"') :
    pqf ('"' :: l) = some ([], l) := by
  cases l with
  | nil => rw [pqf.eq_2, if_pos rfl]
  | cons d ds =>
    have hd : ¬d = '"' := by simpa using h
    rw [pqf.eq_3, if_pos rfl, if_neg hd]

lemma pqf_escape (f : List Char) (rest : List Char) (hrest : rest.head? ≠ some '"') :
    pqf (csvEscape f ++ '"' :: rest) = some (f, rest) := by
  induction f with
  | nil =>
    show pqf ('"' :: rest) = some ([], rest)
    exact pqf_quote_stop rest hrest
  | cons c f ih =>
    by_cases hc : c = '"'
    · subst hc
      have he : csvEscape ('"' :: f) = '"' :: '"' :: csvEscape f := by
        simp [csvEscape, List.flatMap_cons]
      rw [he, List.cons_append, List.cons_append, pqf_quote_quote, ih]
      rfl
    · have he : csvEscape (c :: f) = c :: csvEscape f := by
        simp [csvEscape, List.flatMap_cons, hc]
      rw [he, List.cons_append, pqf_cons_ne c _ hc, ih]
      rfl

lemma parseField_unquoted (s : String) (rest : List Char)
    (hq : csvNeedsQuote s = false)
    (hrest : rest = [] ∨ ∃ tl, rest = ';' :: tl) :
    parseField (s.data ++ rest) = some (s, rest) := by
  have hchars := no_special_chars hq
  have hhead : ¬((s.data ++ rest).head? = some '"') := by
    cases hd : s.data with
    | nil =>
      rcases hrest with rfl | ⟨tl, rfl⟩
      · simp
      · simp only [List.nil_append, List.head?_cons, Option.some.injEq]
        decide
    | cons c cs =>
      have hcq : c ≠ '"' := (hchars c (by rw [hd]; exact List.mem_cons_self _ _)).2
      simp only [List.cons_append, List.head?_cons, Option.some.injEq]
      exact hcq
  unfold parseField
  rw [if_neg hhead]
  rcases hrest with rfl | ⟨tl, rfl⟩
  · rw [List.append_nil]
    have h2 := takeWhile_all_of_all s.data (fun x hx => (hchars x hx).1)
    rw [h2.1, h2.2]
  · have h2 := takeWhile_append_semi s.data tl (fun x hx => (hchars x hx).1)
    rw [h2.1, h2.2]

lemma parseField_quoted (s : String) (rest : List Char)
    (hrest : rest.head? ≠ some '"') :
    parseField ('"' :: (csvEscape s.data ++ '"' :: rest)) = some (s, rest) := by
  unfold parseField
  rw [if_pos (by simp)]
  show (pqf (csvEscape s.data ++ '"' :: rest)).map _ = _
  rw [pqf_escape s.data rest hrest]
  rfl

lemma parseField_csvField (s : String) (rest : List Char)
    (hrest : rest = [] ∨ ∃ tl, rest = ';' :: tl) :
    parseField (csvField s ++ rest) = some (s, rest) := by
  cases hq : csvNeedsQuote s with
  | false =>
    rw [csvField, if_neg (by simp [hq])]
    exact parseField_unquoted s rest hq hrest
  | true =>
    rw [csvField, if_pos (by simp [hq])]
    have hr : rest.head? ≠ some '"' := by
      rcases hrest with rfl | ⟨tl, rfl⟩
      · simp
      · simp only [List.head?_cons, ne_eq, Option.some.injEq]
        decide
    rw [List.cons_append, List.append_assoc]
    exact parseField_quoted s rest hr

lemma decodeRow_rowLine (r : Record) :
    decodeRow (rowLine r) = some (r.address, r.name) := by
  have hdata : (rowLine r).data = csvField r.address ++ ';' :: csvField r.name := rfl
  have h1 : parseField (csvField r.address ++ ';' :: csvField r.name)
      = some (r.address, ';' :: csvField r.name) :=
    parseField_csvField r.address _ (Or.inr ⟨_, rfl⟩)
  have h2 : parseField (csvField r.name) = some (r.name, []) := by
    have := parseField_csvField r.name [] (Or.inl rfl)
    rwa [List.append_nil] at this
  unfold decodeRow
  rw [hdata, h1]
  simp [h2]

lemma decodeRows_map_rowLine (data : List Record) :
    decodeRows (data.map rowLine) = some (data.map (fun r => (r.address, r.name))) := by
  induction data with
  | nil => rfl
  | cons r rs ih => simp [decodeRows, decodeRow_rowLine, ih]

lemma recordListOfJson_map (data : List Record) :
    recordListOfJson (data.map (fun r =>
      Json.obj [("address", .str r.address), ("name", .str r.name)])) = some data := by
  induction data with
  | nil => rfl
  | cons r rs ih => simp [recordListOfJson, recordOfJson, ih]

lemma recordsOfJson_jsonOutput (data : List Record) :
    recordsOfJson (jsonOutput data) = some data := by
  simp [recordsOfJson, jsonOutput, recordListOfJson_map]

lemma dedupSort_pairwise_addrLt (records : List Record) :
    (dedupSortAddresses records).Pairwise addrLt := by
  have hs : (dedupSortAddresses records).Pairwise recLe := dedupSort_sorted records
  have hne : (dedupSortAddresses records).Pairwise
      (fun x y => x.address ≠ y.address) :=
    List.pairwise_map.mp (dedupSort_keys_nodup records)
  refine (hs.and hne).imp ?_
  rintro x y ⟨hle, hne⟩
  rcases hle with h | ⟨he, _⟩
  · exact h
  · exact absurd he hne

/-- C1: deduplication is first-write-wins.  The dedup/sort stage's output
holds each address at most once, and the name its output associates to any
address equals the name of the first harvested record carrying that address
(in harvester order); later records with the same address are dropped even
when their name differs. -/
theorem dedup_first_write_wins (records : List Record) (a : String) :
    ((dedupSortAddresses records).map Record.address).Nodup ∧
    ((dedupSortAddresses records).find? (fun r => r.address == a)).map Record.name
      = (records.find? (fun r => r.address == a)).map Record.name := by
  refine ⟨dedupSort_keys_nodup records, ?_⟩
  rw [find?_addr_eq_of_perm (dedupSort_perm_firstWins records)
    (dedupSort_keys_nodup records) a]
  have h2 := foldl_fwStep_lookup records [] a
  simp only [lookupName] at h2
  unfold firstWins
  rw [h2]
  simp

/-- C2: name assembly.  `get_entity_name` computes exactly the spec's rule:
per alias, the present name-part values joined by one space; the non-empty
assembled names deduplicated in first-seen order and joined with `";"`;
`"Unknown"` when no names result.  The joined names are pairwise distinct,
so two aliases assembling to the same string contribute it once. -/
theorem entity_name_assembly (party : DistinctParty) :
    get_entity_name party = entityNameSpec party ∧
    (dedupFirst (party.aliases.filterMap assembleAlias)).Nodup := by
  constructor
  · unfold get_entity_name entityNameSpec
    simp only [namesFoldl, List.nil_append, dictFromKeys_eq_dedupFirst]
  · exact dedupFirst_nodup _

/-- C3: feature-type resolution.  When no reference entry's text equals
`"Digital Currency Address - <ASSET>"`, `get_address_id` fails with the
`LookupError`, and the driver turns that asset into a warning with no output
files while the remaining assets are still processed; when a matching entry
exists, its `ID` attribute is returned. -/
theorem resolver_lookup_recoverable (root : SdnDoc) (asset : String)
    (fmts rest : List String) :
    (root.featureTypeEntries.find? (fun e => e.text == some (feature_type_text asset)) = none →
      get_address_id root asset = .error (.lookupError
        ("No FeatureType with the name " ++ feature_type_text asset ++ " found")) ∧
      runAssets root fmts (asset :: rest)
        = (runAssets root fmts rest).map (fun os =>
            .warned asset ("Warning: "
              ++ ("No FeatureType with the name " ++ feature_type_text asset ++ " found")) :: os)) ∧
    (∀ e kv,
      root.featureTypeEntries.find? (fun e => e.text == some (feature_type_text asset)) = some e →
      e.attribs.find? (fun kv => kv.1 == "ID") = some kv →
      get_address_id root asset = .ok kv.2) := by
  constructor
  · intro h
    have hid : get_address_id root asset = .error (.lookupError
        ("No FeatureType with the name " ++ feature_type_text asset ++ " found")) := by
      unfold get_address_id
      rw [h]
    refine ⟨hid, ?_⟩
    have hpa : processAsset root asset fmts = .error (.lookupError
        ("No FeatureType with the name " ++ feature_type_text asset ++ " found")) := by
      unfold processAsset
      rw [hid]
    simp [runAssets, hpa, caughtByLookupHandler, errText]
  · intro e kv he hkv
    unfold get_address_id
    rw [he]
    simp only [hkv]

/-- Witness for C3 on a concrete document: XMR has no reference entry, so
the resolver reports the lookup error, the driver emits only a warning
outcome for XMR, and the XBT entry still resolves to its `ID`. -/
theorem resolver_lookup_recoverable_witness :
    get_address_id docOneAsset "XMR" = .error (.lookupError
      ("No FeatureType with the name " ++ feature_type_text "XMR" ++ " found")) ∧
    runAssets docOneAsset ["TXT"] ["XMR"]
      = .ok [.warned "XMR" ("Warning: "
          ++ ("No FeatureType with the name " ++ feature_type_text "XMR" ++ " found"))] ∧
    get_address_id docOneAsset "XBT" = .ok "40" := by
  have h := resolver_lookup_recoverable docOneAsset "XMR" ["TXT"] []
  have h1 := h.1 (by decide)
  refine ⟨h1.1, ?_, ?_⟩
  · rw [h1.2]
    rfl
  · exact (resolver_lookup_recoverable docOneAsset "XBT" ["TXT"] []).2
      ⟨some "Digital Currency Address - XBT", [("ID", "40")]⟩ ("ID", "40")
      (by decide) (by decide)

/-- C4: the dedup/sort stage is total, maps empty input to empty output,
returns exactly the first-write-wins pairs, and its output is sorted
ascending by address (Lean's `String` order, like Python's, compares code
points, i.e. ordinal comparison). -/
theorem dedupSort_sorted_output (records : List Record) :
    dedupSortAddresses [] = [] ∧
    (dedupSortAddresses records).Perm (firstWins records) ∧
    (dedupSortAddresses records).Pairwise addrLt :=
  ⟨rfl, dedupSort_perm_firstWins records, dedupSort_pairwise_addrLt records⟩

/-- C5 counterexample: a `VersionDetail` whose text is the whitespace-only
string `" "` is truthy in Python, so the harvester emits it as a record —
the claim says it is skipped. -/
theorem whitespace_value_emitted_cex :
    (⟨" ", "Unknown"⟩ : Record) ∈ get_sanctioned_addresses wsDoc "1" ∧
    (" " : String).data.all Char.isWhitespace = true ∧
    (" " : String) ≠ "" := by
  refine ⟨by decide, by decide, by decide⟩

/-- C5 amended: the harvester skips exactly the features whose version text
is absent or the empty string; every emitted record (in particular one with
a whitespace-only address) has a non-empty address, and the harvest equals
the spec-side description keeping all present non-empty values. -/
theorem harvest_skips_only_empty (root : SdnDoc) (fid : String) :
    get_sanctioned_addresses root fid = harvestSpec root fid ∧
    ∀ r ∈ get_sanctioned_addresses root fid, r.address ≠ "" := by
  have he : get_sanctioned_addresses root fid = harvestSpec root fid := by
    unfold get_sanctioned_addresses harvestSpec
    rw [harvestFoldl]
    simp
  refine ⟨he, ?_⟩
  rw [he]
  intro r hr
  unfold harvestSpec at hr
  rw [List.mem_flatMap] at hr
  rcases hr with ⟨p, _, hr⟩
  rw [List.mem_map] at hr
  rcases hr with ⟨s, hs, rfl⟩
  rw [List.mem_filterMap] at hs
  rcases hs with ⟨t, _, ht⟩
  exact keepText_ne_empty ht

/-- Witness for the amended C5 on a concrete document: the fold/flatMap
characterization holds, and the emitted whitespace-only record has a
non-empty address. -/
theorem harvest_skips_only_empty_witness :
    get_sanctioned_addresses wsDoc "1" = harvestSpec wsDoc "1" ∧
    (⟨" ", "Unknown"⟩ : Record).address ≠ "" :=
  ⟨(harvest_skips_only_empty wsDoc "1").1,
   (harvest_skips_only_empty wsDoc "1").2 ⟨" ", "Unknown"⟩ (by decide)⟩

/-- C6 counterexample: the TXT writer CSV-quotes a name containing the
delimiter, so the emitted line is not the plain
`address ++ ";" ++ name` the claim describes. -/
theorem txt_line_quoting_cex :
    rowLine ⟨"addr1", "Name A;Name B"⟩ = "addr1;\"Name A;Name B\"" ∧
    rowLine ⟨"addr1", "Name A;Name B"⟩ ≠ "addr1" ++ ";" ++ "Name A;Name B" := by
  exact ⟨by decide, by decide⟩

/-- C6 amended: the TXT output has exactly one line per record and no
header; each line is the two CSV-encoded fields joined by `";"`, and when
neither field contains a delimiter, quote or line terminator the line is
exactly `address ++ ";" ++ name`. -/
theorem txt_line_format (data : List Record) (asset : String) (fmts : List String)
    (h : "TXT" ∈ fmts) :
    (write_addresses data asset fmts).head?
        = some ⟨"sanctioned_addresses_" ++ asset ++ ".txt", .txtRows (data.map rowLine)⟩ ∧
    (data.map rowLine).length = data.length ∧
    ∀ r ∈ data, csvNeedsQuote r.address = false → csvNeedsQuote r.name = false →
      rowLine r = r.address ++ ";" ++ r.name := by
  refine ⟨?_, by simp, ?_⟩
  · unfold write_addresses
    rw [if_pos h]
    rfl
  · intro r _ hqa hqn
    simp only [rowLine, csvField, hqa, hqn, Bool.false_eq_true, if_false]
    have hdata : (r.address ++ ";" ++ r.name).data
        = r.address.data ++ ';' :: r.name.data := by
      rw [String.data_append, String.data_append, List.append_assoc]
      rfl
    exact (congrArg String.mk hdata).symm

/-- Witness for the amended C6 at a concrete record list with plain
fields. -/
theorem txt_line_format_witness :
    (write_addresses [⟨"a", "b"⟩] "XBT" ["TXT"]).head?
        = some ⟨"sanctioned_addresses_" ++ "XBT" ++ ".txt",
            .txtRows (([⟨"a", "b"⟩] : List Record).map rowLine)⟩ ∧
    rowLine ⟨"a", "b"⟩ = "a" ++ ";" ++ "b" := by
  have h := txt_line_format [⟨"a", "b"⟩] "XBT" ["TXT"] (by decide)
  exact ⟨h.1, h.2.2 ⟨"a", "b"⟩ (by decide) (by decide) (by decide)⟩

/-- C7: when both formats are requested, every pair of files written for the
run represents the same list (hence the same set) of (address, name)
pairs — the CSV-decoded TXT rows agree with the parsed JSON array. -/
theorem formats_same_pairs (data : List Record) (asset : String) (fmts : List String)
    (h1 : "TXT" ∈ fmts) (h2 : "JSON" ∈ fmts) :
    ∀ f ∈ write_addresses data asset fmts, ∀ g ∈ write_addresses data asset fmts,
      filePairs f.content = filePairs g.content := by
  have hw : write_addresses data asset fmts
      = [⟨"sanctioned_addresses_" ++ asset ++ ".txt", .txtRows (data.map rowLine)⟩,
         ⟨"sanctioned_addresses_" ++ asset ++ ".json", .jsonDoc (jsonOutput data)⟩] := by
    unfold write_addresses
    rw [if_pos h1, if_pos h2]
    rfl
  have hval : ∀ f ∈ write_addresses data asset fmts,
      filePairs f.content = some (data.map (fun r => (r.address, r.name))) := by
    intro f hf
    rw [hw] at hf
    rcases List.mem_cons.mp hf with rfl | hf
    · simp [filePairs, decodeRows_map_rowLine]
    · rcases List.mem_cons.mp hf with rfl | hf
      · simp [filePairs, recordsOfJson_jsonOutput]
      · simp at hf
  intro f hf g hg
  rw [hval f hf, hval g hg]

/-- Witness for C7 at a concrete record list: the TXT rows and the JSON
document written in the same run decode to the same pairs. -/
theorem formats_same_pairs_witness :
    filePairs (FileContent.txtRows (([⟨"x", "y"⟩] : List Record).map rowLine))
      = filePairs (FileContent.jsonDoc (jsonOutput [⟨"x", "y"⟩])) := by
  have hw : write_addresses [⟨"x", "y"⟩] "XBT" ["TXT", "JSON"]
      = [⟨"sanctioned_addresses_" ++ "XBT" ++ ".txt",
            .txtRows (([⟨"x", "y"⟩] : List Record).map rowLine)⟩,
         ⟨"sanctioned_addresses_" ++ "XBT" ++ ".json",
            .jsonDoc (jsonOutput [⟨"x", "y"⟩])⟩] := rfl
  exact formats_same_pairs [⟨"x", "y"⟩] "XBT" ["TXT", "JSON"] (by decide) (by decide)
    _ (by rw [hw]; exact List.mem_cons_self _ _)
    _ (by rw [hw]; exact List.mem_cons_of_mem _ (List.mem_cons_self _ _))

/-- C8: the dedup/sort stage is idempotent — applying it to its own output
returns that output unchanged — and its output addresses are strictly
ascending, hence duplicate-free. -/
theorem dedupSort_idempotent (records : List Record) :
    dedupSortAddresses (dedupSortAddresses records) = dedupSortAddresses records ∧
    (dedupSortAddresses records).Pairwise addrLt := by
  refine ⟨?_, dedupSort_pairwise_addrLt records⟩
  show List.insertionSort recLe (firstWins (dedupSortAddresses records))
      = dedupSortAddresses records
  rw [firstWins_of_nodup (dedupSort_keys_nodup records)]
  exact (dedupSort_sorted records).insertionSort_eq

/-- C9: JSON round-trip — parsing the serialized JSON output back yields
exactly the in-memory record list: same addresses, same names, same
order. -/
theorem json_round_trip (records : List Record) :
    recordsOfJson (jsonOutput records) = some records :=
  recordsOfJson_jsonOutput records

/-- C10 counterexample: on a document whose ETH entry lacks an `ID`
attribute the resolver raises `KeyError "ID"`, yet the run does NOT abort —
`KeyError` is a `LookupError` subclass in Python, so the per-asset handler
catches it, warns, and the next asset is still processed. -/
theorem missing_id_not_fatal_cex :
    get_address_id docMissingId "ETH" = .error (.keyError "ID") ∧
    runAssets docMissingId ["TXT"] ["ETH", "XBT"]
      = .ok [.warned "ETH" "Warning: 'ID'",
             .processed "XBT"
               [⟨"sanctioned_addresses_XBT.txt", .txtRows ["addr1;Alpha"]⟩] 1] :=
  ⟨rfl, rfl⟩

/-- C10 amended: a matching entry without an `ID` attribute makes the
resolver fail with `KeyError "ID"`, which the driver's `except LookupError`
handler does catch (`KeyError` subclasses `LookupError`): the asset becomes
a warning and the remaining assets are processed; the run does not abort. -/
theorem missing_id_warns_and_continues (root : SdnDoc) (asset : String)
    (fmts rest : List String) (e : RefEntry)
    (he : root.featureTypeEntries.find? (fun x => x.text == some (feature_type_text asset)) = some e)
    (hid : e.attribs.find? (fun kv => kv.1 == "ID") = none) :
    get_address_id root asset = .error (.keyError "ID") ∧
    runAssets root fmts (asset :: rest)
      = (runAssets root fmts rest).map (fun os =>
          .warned asset ("Warning: " ++ errText (.keyError "ID")) :: os) := by
  have hga : get_address_id root asset = .error (.keyError "ID") := by
    unfold get_address_id
    rw [he]
    simp only [hid]
  refine ⟨hga, ?_⟩
  have hpa : processAsset root asset fmts = .error (.keyError "ID") := by
    unfold processAsset
    rw [hga]
  simp [runAssets, hpa, caughtByLookupHandler]

/-- Witness for the amended C10 on the concrete document. -/
theorem missing_id_warns_and_continues_witness :
    get_address_id docMissingId "ETH" = .error (.keyError "ID") ∧
    runAssets docMissingId ["TXT"] ["ETH"]
      = (runAssets docMissingId ["TXT"] []).map (fun os =>
          .warned "ETH" ("Warning: " ++ errText (.keyError "ID")) :: os) :=
  missing_id_warns_and_continues docMissingId "ETH" ["TXT"] []
    ⟨some "Digital Currency Address - ETH", []⟩ (by decide) (by decide)

end Ofac
